import Mathlib

/-!
Verification of the homun-std semantics-preservation layer.

The development shallowly embeds the core runtime of the repository:
generalized indexing and slicing (src/builtin.rs), the cached anchored
pattern matcher (src/re.rs), and the shared-ownership min-priority queue
(src/heap.rs).  Sequences are modelled as Lean lists, machine integers as
`Int`/`Nat` with explicit two's-complement wrapping where a cast can wrap,
and Rust panics as `Option.none`.  Subject strings are modelled as lists of
characters; for the texts considered here (ASCII) character offsets and the
code's byte offsets coincide, and Rust's byte-wise string order coincides
with the code-point-wise lexicographic order used below.
-/

namespace HomunStd

/-- Largest i64 value, the unspecified-end sentinel recognised by
`homun_slice` in src/builtin.rs (`i64::MAX`). -/
def i64Max : Int := 2 ^ 63 - 1

/-- The offset-normalising closure `norm` inside `homun_slice`
(src/builtin.rs): `let i = if i < 0 { len + i } else { i };
i.max(0).min(len) as usize`.  For `-2^63 <= i` and `0 <= len < 2^63` the
i64 arithmetic cannot wrap, so plain `Int` arithmetic is exact. -/
def normOffset (len : Int) (o : Int) : Nat :=
  (min (max (if o < 0 then len + o else o) 0) len).toNat

/-- Fuel-indexed embedding of the Rust iterator chain
`(i..e).step_by(k).map(|i| v[i].clone()).collect()` from `homun_slice`:
while `i < e`, yield `v[i]` and advance `i` by `k`.  The fuel argument only
bounds the number of loop iterations; every use below supplies enough fuel
for the loop to run to completion. -/
def collectUpAux (v : List α) (k : Nat) : Nat → Nat → Nat → List α
  | 0, _, _ => []
  | fuel + 1, i, e =>
      if i < e then (v[i]?).toList ++ collectUpAux v k fuel (i + k) e else []

/-- The `(s..e).step_by(k)` element collection of `homun_slice`. -/
def collectUp (v : List α) (s e k : Nat) : List α :=
  collectUpAux v k (e - s + 1) s e

/-- Fuel-indexed embedding of
`(s..e).rev().step_by(k).map(|i| v[i].clone()).collect()` from
`homun_slice`: `i` is one past the current index; while `i > s`, yield
`v[i-1]` and retreat `i` by `k`.  Natural subtraction `i - k` matches the
iterator: it can only truncate when the true value would already have
fallen below `s`, where the loop stops either way. -/
def collectDownAux (v : List α) (k : Nat) : Nat → Nat → Nat → List α
  | 0, _, _ => []
  | fuel + 1, i, s =>
      if s < i then (v[i - 1]?).toList ++ collectDownAux v k fuel (i - k) s else []

/-- The `(s..e).rev().step_by(k)` element collection of `homun_slice`. -/
def collectDown (v : List α) (s e k : Nat) : List α :=
  collectDownAux v k (e - s + 1) e s

/-- Shallow embedding of `homun_slice` (src/builtin.rs).  `start`, `stop`
and `step` are the i64 arguments; `v.len() as i64` is exact for every real
vector (length below 2^63).  `step.natAbs` embeds `(-step) as usize`, which
agrees with the absolute value even at `i64::MIN` under two's-complement
wrapping. -/
def homun_slice (v : List α) (start stop step : Int) : List α :=
  let len : Int := (v.length : Int)
  if 0 < step then
    collectUp v (normOffset len start) (normOffset len stop) step.toNat
  else if step < 0 then
    let s2 : Nat := if stop = i64Max then 0 else normOffset len stop
    let e2 : Nat := if start = 0 then v.length else normOffset len start
    collectDown v s2 e2 step.natAbs
  else []

/-- Shallow embedding of `HomunIndex for Vec<T>` (src/builtin.rs):
`self[if key < 0 { self.len() as i32 + key } else { key } as usize]`.
The `as usize` cast sign-extends two's-complement, embedded as reduction
modulo 2^64; an out-of-range lookup is the Rust index panic, embedded as
`none`.  The `len as i32` cast is exact for lengths below 2^31. -/
def homun_idx (v : List α) (key : Int) : Option α :=
  let len : Int := (v.length : Int)
  let i : Int := if key < 0 then len + key else key
  v[(i % 2 ^ 64).toNat]?

/-- Shallow embedding of `homun_concat` (src/builtin.rs): `a.extend(b)`. -/
def homun_concat (a b : List α) : List α := a ++ b

/-- The `pos as usize` cast of `re_match` (src/re.rs): an i32 sign-extends
to a 64-bit machine word, i.e. reduces two's-complement modulo 2^64. -/
def toUsize (i : Int) : Nat := (i % 2 ^ 64).toNat

/-- The `as i32` cast applied to a usize in `re_match` (src/re.rs):
truncate to 32 bits and reinterpret as a signed two's-complement value. -/
def toI32ofNat (n : Nat) : Int := ((n : Int) + 2 ^ 31) % 2 ^ 32 - 2 ^ 31

/-- A compiled pattern of the external regex crate, modelled by its
observable `find` behaviour on a haystack: `none` when the pattern matches
nowhere, otherwise `some (s, e)`, the half-open offset range of the
leftmost match (`m.start() = s`, `m.end() = e`). -/
def RegexFind : Type := List Char → Option (Nat × Nat)

/-- Shallow embedding of `re_match` (src/re.rs).  The compiled pattern
obtained from `get_or_compile` is passed as its `find` behaviour; the
subject string is a list of characters whose offsets coincide with the
code's byte offsets on ASCII text.  Matches the source line by line:
wrap `pos` to usize, soft-fail when it exceeds the text length, run
`re.find` on `text[pos..]`, and succeed only when the leftmost match
starts at offset 0 of that suffix. -/
def re_match (re : RegexFind) (text : List Char) (pos : Int) :
    Bool × List Char × Int :=
  let posU : Nat := toUsize pos
  if text.length < posU then (false, [], toI32ofNat posU)
  else
    let haystack : List Char := text.drop posU
    match re haystack with
    | some (ms, me) =>
        if ms = 0 then (true, haystack.take me, toI32ofNat (posU + me))
        else (false, [], toI32ofNat posU)
    | none => (false, [], toI32ofNat posU)

/-- The `find` behaviour the external regex crate gives the pattern
`[0-9]+`: the leftmost maximal run of decimal digits (leftmost search,
greedy repetition). -/
def digitPlusFind : RegexFind := fun h =>
  match h.findIdx? Char.isDigit with
  | none => none
  | some s => some (s, s + ((h.drop s).takeWhile Char.isDigit).length)

/-- Shallow embedding of `get_or_compile` (src/re.rs) over one execution
context's cache, modelled as an association list with HashMap lookup
semantics (at most one entry per key).  `compile` is the external
`Regex::new`; on a hit the cached object is returned, on a miss the
pattern is compiled, inserted and returned. -/
def get_or_compile {R : Type} (compile : String → R)
    (cache : List (String × R)) (p : String) : R × List (String × R) :=
  match cache.find? (fun kv => kv.1 == p) with
  | some kv => (kv.2, cache)
  | none => (compile p, cache ++ [(p, compile p)])

/-- Byte-wise lexicographic strict order of Rust `String`, expressed on the
character lists that model strings (UTF-8 byte order and code-point order
agree). -/
def lexLt : List Char → List Char → Bool
  | [], [] => false
  | [], _ :: _ => true
  | _ :: _, [] => false
  | a :: s, b :: t => if a < b then true else if b < a then false else lexLt s t

/-- One entry of the queue: a priority and an item string. -/
abbrev HeapEntry : Type := Int × List Char

/-- Pop precedence of `BinaryHeap<(Reverse<i32>, String)>` (src/heap.rs):
`popLeB x y` holds when `x` leaves the heap no later than `y`, i.e. `x` is
at least as large as `y` in the derived `(Reverse priority, item)` order:
strictly smaller priority first, and on equal priorities the
lexicographically larger item first. -/
def popLeB (x y : HeapEntry) : Bool :=
  if x.1 < y.1 then true
  else if y.1 < x.1 then false
  else if lexLt y.2 x.2 then true
  else x.2 == y.2

/-- The greatest entry (in `BinaryHeap`'s order, i.e. the one `pop`
returns first) among `a` and the entries of `l`. -/
def binHeapPick (a : HeapEntry) (l : List HeapEntry) : HeapEntry :=
  l.foldl (fun best y => if popLeB best y then best else y) a

/-- Observable behaviour of `BinaryHeap::pop` on the heap's multiset of
entries, modelled as a list: remove and return a greatest entry under the
`(Reverse priority, item)` order, `none` on the empty heap.  Entries that
compare equal in that total order are identical values, so which
occurrence is removed is unobservable. -/
def binHeapPop (h : List HeapEntry) :
    Option (HeapEntry × List HeapEntry) :=
  match h with
  | [] => none
  | a :: t =>
      let m := binHeapPick a t
      some (m, (a :: t).erase m)

/-- Repeatedly pop until the heap is empty, returning the entries in pop
order.  The fuel `h.length` is exactly the number of pops needed. -/
def popAllAux : Nat → List HeapEntry → List HeapEntry
  | 0, _ => []
  | fuel + 1, h =>
      match binHeapPop h with
      | none => []
      | some (m, r) => m :: popAllAux fuel r

/-- The full pop sequence of a queue state. -/
def popAll (h : List HeapEntry) : List HeapEntry := popAllAux h.length h

/-- The shared-queue store: heap instances addressed by handle.  A handle
(`Rc` clone in src/heap.rs) is an index into the store; cloning a handle
copies the index, never the instance, which embeds the aliasing of
`Rc<RefCell<BinaryHeap<_>>>`. -/
abbrev HeapStore : Type := List (List HeapEntry)

/-- Shallow embedding of `heap_new` (src/heap.rs): allocate a fresh empty
instance and return the updated store with the first handle to it. -/
def heap_new (st : HeapStore) : HeapStore × Nat :=
  (st ++ [([] : List HeapEntry)], st.length)

/-- Shallow embedding of `heap_push` (src/heap.rs): add the entry to the
multiset of the instance the handle aliases. -/
def heap_push (st : HeapStore) (h : Nat) (priority : Int)
    (item : List Char) : HeapStore :=
  st.set h ((st.getD h []) ++ [(priority, item)])

/-- Shallow embedding of `heap_pop` (src/heap.rs): pop the instance the
handle aliases and write the shrunken instance back through the handle. -/
def heap_pop (st : HeapStore) (h : Nat) :
    Option HeapEntry × HeapStore :=
  match binHeapPop (st.getD h []) with
  | none => (none, st)
  | some (m, r) => (some m, st.set h r)

/-- Shallow embedding of `heap_len` (src/heap.rs); the `as i32` cast is
exact for every length below 2^31. -/
def heap_len (st : HeapStore) (h : Nat) : Int := ((st.getD h []).length : Int)

/-- Shallow embedding of `heap_is_empty` (src/heap.rs). -/
def heap_is_empty (st : HeapStore) (h : Nat) : Bool := (st.getD h []).isEmpty

/-- Claim C2's normalisation rule, written the way the specification
states it: `clamp(o < 0 ? len + o : o, 0, len)`. -/
def clampNorm (len : Nat) (o : Int) : Nat :=
  (min (max (if o < 0 then (len : Int) + o else o) 0) (len : Int)).toNat

/-- Claim C2's description of a positive-step slice: the elements of `v`
at indices `s`, `s + k`, `s + 2k`, ... that are strictly below `e`.  The
number of such indices is the rounded-up quotient `(e - s + k - 1) / k`. -/
def sliceSpecPos (v : List α) (s e k : Nat) : List α :=
  ((List.range ((e - s + k - 1) / k)).map (fun j => s + j * k)).filterMap
    (fun n => v[n]?)

/-- Reading every position of a list in order through the total lookup
reproduces the list. -/
theorem range_filterMap_getElem (v : List α) :
    (List.range v.length).filterMap (fun n => v[n]?) = v := by
  induction v with
  | nil => simp
  | cons a t ih =>
      simpa [List.range_succ_eq_map, List.filterMap_cons, List.filterMap_map,
        Function.comp_def, List.getElem?_cons_succ] using ih

/-- The strided upward walk of `homun_slice` collects exactly the elements
at `i`, `i + k`, `i + 2k`, ... strictly below `e`, of which there are
`(e - i + k - 1) / k`. -/
theorem collectUpAux_eq (v : List α) (k : Nat) (hk : 0 < k) :
    ∀ fuel i e, e - i < fuel →
      collectUpAux v k fuel i e =
        ((List.range ((e - i + k - 1) / k)).map (fun j => i + j * k)).filterMap
          (fun n => v[n]?) := by
  intro fuel
  induction fuel with
  | zero => intro i e h; exact absurd h (Nat.not_lt_zero _)
  | succ fuel ih =>
      intro i e h
      by_cases hie : i < e
      · have hcnt : (e - i + k - 1) / k = (e - i - 1) / k + 1 := by
          rw [show e - i + k - 1 = (e - i - 1) + k by omega]
          exact Nat.add_div_right _ hk
        have hc2 : (e - (i + k) + k - 1) / k = (e - i - 1) / k := by
          rcases Nat.le_total e (i + k) with h1 | h2
          · rw [show e - (i + k) + k - 1 = k - 1 by omega]
            rw [Nat.div_eq_of_lt (by omega), Nat.div_eq_of_lt (by omega)]
          · congr 1
            omega
        have hfun : ((fun j => i + j * k) ∘ Nat.succ) = fun j => (i + k) + j * k := by
          funext j
          simp only [Function.comp_apply, Nat.succ_eq_add_one]
          ring
        simp only [collectUpAux, if_pos hie, ih (i + k) e (by omega)]
        rw [hc2, hcnt, List.range_succ_eq_map, List.map_cons, List.filterMap_cons,
          List.map_map, hfun]
        cases hv : v[i]? <;> simp [hv]
      · have hz : (e - i + k - 1) / k = 0 := by
          rw [show e - i + k - 1 = k - 1 by omega]
          exact Nat.div_eq_of_lt (by omega)
        simp [collectUpAux, if_neg hie, hz]

/-- `collectUp` always starts with enough fuel, so it satisfies the claim's
characterisation of a positive-step slice. -/
theorem collectUp_eq (v : List α) (s e k : Nat) (hk : 0 < k) :
    collectUp v s e k = sliceSpecPos v s e k :=
  collectUpAux_eq v k hk (e - s + 1) s e (Nat.lt_succ_self _)

/-- The downward stride-1 walk starting one past index `j` collects the
first `j` elements in reverse. -/
theorem collectDownAux_rev (v : List α) :
    ∀ j, collectDownAux v 1 (j + 1) j 0 = (v.take j).reverse := by
  intro j
  induction j with
  | zero => simp [collectDownAux]
  | succ j ih =>
      have hstep : collectDownAux v 1 (j + 1 + 1) (j + 1) 0 =
          (v[j]?).toList ++ collectDownAux v 1 (j + 1) j 0 := by
        simp [collectDownAux]
      rw [hstep, ih, List.take_succ, List.reverse_append]
      cases hv : v[j]? <;> simp [hv]

/-- Normalising the offset 0 gives 0. -/
theorem normOffset_zero (len : Int) : normOffset len 0 = 0 := by
  unfold normOffset
  rw [if_neg (by omega)]
  omega

/-- Normalising the length offset itself gives the length. -/
theorem normOffset_length (n : Nat) : normOffset (n : Int) (n : Int) = n := by
  unfold normOffset
  rw [if_neg (by omega)]
  omega

/-- C2.  For step > 0, `homun_slice` returns exactly the elements at the
arithmetic progression of indices the claim describes, after the claim's
clamp-normalisation of both bounds; in particular the full unit-step slice
is the identity.  (`normOffset` and `clampNorm` are definitionally the
same computation, so the equation relates the source walk to the claim's
index arithmetic.) -/
theorem slice_pos_step (v : List α) (a b c : Int) (hc : 0 < c) :
    homun_slice v a b c =
      sliceSpecPos v (clampNorm v.length a) (clampNorm v.length b) c.toNat
    ∧ homun_slice v 0 (v.length : Int) 1 = v := by
  constructor
  · simp only [homun_slice, if_pos hc]
    exact collectUp_eq v _ _ _ (by omega)
  · have h1 : (0 : Int) < 1 := by omega
    simp only [homun_slice, if_pos h1]
    rw [normOffset_zero, normOffset_length v.length]
    rw [show (1 : Int).toNat = 1 from rfl,
      collectUp_eq v 0 v.length 1 Nat.one_pos]
    unfold sliceSpecPos
    simp only [Nat.sub_zero, Nat.add_sub_cancel, Nat.div_one, Nat.zero_add,
      Nat.mul_one]
    simpa using range_filterMap_getElem v

/-- Witness for C2 at a concrete input. -/
theorem slice_pos_step_witness :
    (0 : Int) < 2 ∧
      (homun_slice ([10, 20, 30, 40, 50] : List Int) (-4) 9 2 =
          sliceSpecPos ([10, 20, 30, 40, 50] : List Int)
            (clampNorm 5 (-4)) (clampNorm 5 9) ((2 : Int)).toNat
        ∧ homun_slice ([10, 20, 30, 40, 50] : List Int) 0
            (([10, 20, 30, 40, 50] : List Int).length : Int) 1 =
            [10, 20, 30, 40, 50]) :=
  ⟨by omega, slice_pos_step [10, 20, 30, 40, 50] (-4) 9 2 (by omega)⟩

/-- C1 counterexample: the default-bound reverse request with an explicit
end of `len(s)` does not reverse `s`; the `start == 0` sentinel fires and
the walk is empty. -/
theorem slice_len_reverse_counterexample :
    ¬ homun_slice ([1, 2, 3] : List Int) 0 3 (-1) =
        ([1, 2, 3] : List Int).reverse := by
  decide

/-- C1 as amended.  `Slice(s, 0, UNSPECIFIED_END, -1)` (start 0, end the
maximum representable offset) reverses `s`, while `Slice(s, 0, len(s), -1)`
returns the empty sequence: with a negative step, `start == 0` makes the
effective upper bound `len`, and the explicitly given end `len(s)`
normalises to `len` as well, so the downward walk is empty. -/
theorem slice_reverse_sentinels (v : List α) (h : (v.length : Int) < i64Max) :
    homun_slice v 0 i64Max (-1) = v.reverse
    ∧ homun_slice v 0 (v.length : Int) (-1) = [] := by
  constructor
  · have hneg : ¬ (0 : Int) < -1 := by omega
    have hlt : (-1 : Int) < 0 := by omega
    simp only [homun_slice, if_neg hneg, if_pos hlt, if_pos rfl,
      if_pos (rfl : (0 : Int) = 0)]
    show collectDown v 0 v.length 1 = v.reverse
    unfold collectDown
    rw [Nat.sub_zero]
    rw [collectDownAux_rev v v.length, List.take_length]
  · have hneg : ¬ (0 : Int) < -1 := by omega
    have hlt : (-1 : Int) < 0 := by omega
    have hne : ¬ (v.length : Int) = i64Max := by omega
    simp only [homun_slice, if_neg hneg, if_pos hlt, if_neg hne,
      if_pos (rfl : (0 : Int) = 0)]
    show collectDown v (normOffset (v.length : Int) (v.length : Int))
        v.length 1 = []
    rw [normOffset_length v.length]
    unfold collectDown
    rw [Nat.sub_self]
    simp [collectDownAux]

/-- Witness for the amended C1 at a concrete input. -/
theorem slice_reverse_sentinels_witness :
    (([1, 2] : List Int).length : Int) < i64Max ∧
      (homun_slice ([1, 2] : List Int) 0 i64Max (-1) =
          ([1, 2] : List Int).reverse
        ∧ homun_slice ([1, 2] : List Int) 0
            (([1, 2] : List Int).length : Int) (-1) = []) :=
  ⟨by decide, slice_reverse_sentinels [1, 2] (by decide)⟩

/-- C3.  Evaluating `homun_idx` at the failing input of the claim: index 5
on a two-element vector panics (an out-of-range Rust index, embedded as
`none`) instead of surfacing a recoverable typed error; the normalisation
itself behaves as the claim says (`-1` reads the last element, `-3` is out
of range again via the wrapped `as usize` cast). -/
theorem idx_panics_out_of_range :
    homun_idx ([10, 20] : List Int) 5 = none
    ∧ homun_idx ([10, 20] : List Int) (-1) = some 20
    ∧ homun_idx ([10, 20] : List Int) (-3) = none := by
  refine ⟨?_, ?_, ?_⟩ <;> decide

/-- A nonnegative i32 passes through the `as usize` cast unchanged. -/
theorem toUsize_of_nonneg (pos : Int) (h0 : 0 ≤ pos) (h1 : pos < 2 ^ 64) :
    toUsize pos = pos.toNat := by
  unfold toUsize
  omega

/-- A negative i32 sign-extends to `pos + 2^64` under the `as usize` cast. -/
theorem toUsize_of_neg (pos : Int) (hlo : -(2 ^ 64) ≤ pos) (h : pos < 0) :
    (toUsize pos : Int) = pos + 2 ^ 64 := by
  unfold toUsize
  omega

/-- A usize below 2^31 passes through the `as i32` cast unchanged. -/
theorem toI32ofNat_small (n : Nat) (h : n < 2 ^ 31) : toI32ofNat n = n := by
  unfold toI32ofNat
  omega

/-- Casting a sign-extended negative i32 back to i32 reproduces it. -/
theorem toI32ofNat_roundtrip (pos : Int) (hlo : -(2 ^ 31) ≤ pos)
    (h : pos < 0) : toI32ofNat ((pos + 2 ^ 64).toNat) = pos := by
  unfold toI32ofNat
  omega

/-- C4.  Whenever no match of the pattern begins at the attempted offset —
because the offset lies beyond the text, is negative, or the compiled
pattern's leftmost match in the remaining text does not start at its first
position — `re_match` returns `(false, "", pos)` with the end offset equal
to the attempted offset, never advanced. -/
theorem re_match_no_match (re : RegexFind) (text : List Char) (pos : Int)
    (hlo : -(2 ^ 31) ≤ pos) (hhi : pos < 2 ^ 31)
    (hlen : (text.length : Int) < 2 ^ 31)
    (hnm : pos < 0 ∨ (text.length : Int) < pos
      ∨ ∀ q, re (text.drop pos.toNat) ≠ some (0, q)) :
    re_match re text pos = (false, [], pos) := by
  rcases lt_or_le pos 0 with hneg | hpos
  · have h1 : (toUsize pos : Int) = pos + 2 ^ 64 :=
      toUsize_of_neg pos (by omega) hneg
    have h2 : text.length < toUsize pos := by omega
    have h3 : toI32ofNat (toUsize pos) = pos := by
      rw [show toUsize pos = (pos + 2 ^ 64).toNat by omega]
      exact toI32ofNat_roundtrip pos hlo hneg
    simp only [re_match, if_pos h2, h3]
  · have h1 : toUsize pos = pos.toNat := toUsize_of_nonneg pos hpos (by omega)
    have h3 : toI32ofNat (toUsize pos) = pos := by
      rw [h1]
      rw [toI32ofNat_small pos.toNat (by omega)]
      omega
    rcases lt_or_le (text.length : Int) pos with hfar | hin
    · have h2 : text.length < toUsize pos := by omega
      simp only [re_match, if_pos h2, h3]
    · have h2 : ¬ text.length < toUsize pos := by omega
      have hnm3 : ∀ q, re (text.drop pos.toNat) ≠ some (0, q) := by
        rcases hnm with h | h | h
        · omega
        · omega
        · exact h
      simp only [re_match, if_neg h2, h1]
      cases hm : re (text.drop pos.toNat) with
      | none => simp [h1 ▸ h3]
      | some se =>
          obtain ⟨ms, me⟩ := se
          have hms : ¬ ms = 0 := by
            intro h0
            exact hnm3 me (h0 ▸ hm)
          simp [hm, hms, h1 ▸ h3]

/-- Witness for C4 at a concrete input. -/
theorem re_match_no_match_witness :
    -(2 ^ 31) ≤ (0 : Int) ∧ (0 : Int) < 2 ^ 31
    ∧ ((("hello 42".toList : List Char).length : Int) < 2 ^ 31)
    ∧ re_match digitPlusFind ("hello 42".toList) 0 = (false, [], 0) :=
  ⟨by omega, by omega, by decide,
    re_match_no_match digitPlusFind ("hello 42".toList) 0 (by omega) (by omega)
      (by decide)
      (Or.inr (Or.inr (by
        intro q hq
        rw [show digitPlusFind (("hello 42".toList : List Char).drop
            ((0 : Int)).toNat) = some (6, 8) from by decide] at hq
        simp at hq)))⟩

/-- C5.  At a valid offset, `re_match` succeeds exactly when the compiled
pattern's leftmost match of the remaining text starts at its first
character (a match beginning exactly at `pos`); on success it returns the
matched substring — possibly a strict prefix of the remaining text — and
the end offset `pos` plus the matched substring's length.  The two
concrete examples of the claim are checked against the modelled `[0-9]+`
pattern. -/
theorem re_match_anchored (re : RegexFind) (text : List Char) (pos : Int)
    (h0 : 0 ≤ pos) (hle : pos ≤ (text.length : Int))
    (hlen : (text.length : Int) < 2 ^ 31) :
    ((re_match re text pos).1 = true
      ↔ ∃ q, re (text.drop pos.toNat) = some (0, q))
    ∧ (∀ q, re (text.drop pos.toNat) = some (0, q) →
        q ≤ (text.drop pos.toNat).length →
        re_match re text pos = (true, (text.drop pos.toNat).take q,
          pos + (((text.drop pos.toNat).take q).length : Int)))
    ∧ re_match digitPlusFind ("abc 123 def".toList) 4 = (true, "123".toList, 7)
    ∧ re_match digitPlusFind ("hello 42".toList) 0 = (false, [], 0) := by
  have h1 : toUsize pos = pos.toNat := toUsize_of_nonneg pos h0 (by omega)
  have h2 : ¬ text.length < pos.toNat := by omega
  refine ⟨?_, ?_, by decide, by decide⟩
  · simp only [re_match, h1, if_neg h2]
    cases hm : re (text.drop pos.toNat) with
    | none => simp
    | some se =>
        obtain ⟨ms, me⟩ := se
        by_cases hms : ms = 0
        · subst hms
          simp
        · simp [hms]
  · intro q hq hqlen
    have hlen2 : ((text.drop pos.toNat).take q).length = q := by
      rw [List.length_take]
      omega
    have h3 : toI32ofNat (pos.toNat + q) = pos + q := by
      have hq2 : (text.drop pos.toNat).length = text.length - pos.toNat :=
        List.length_drop _ _
      rw [toI32ofNat_small (pos.toNat + q) (by omega)]
      push_cast
      omega
    simp only [re_match, h1, if_neg h2, hq]
    simp [hlen2, h3]

/-- Witness for C5 at a concrete input. -/
theorem re_match_anchored_witness :
    (0 : Int) ≤ 4 ∧ (4 : Int) ≤ (("abc 123 def".toList : List Char).length : Int)
    ∧ ((("abc 123 def".toList : List Char).length : Int) < 2 ^ 31)
    ∧ (((re_match digitPlusFind ("abc 123 def".toList) 4).1 = true
        ↔ ∃ q, digitPlusFind ("abc 123 def".toList.drop (4 : Int).toNat) =
            some (0, q))) :=
  ⟨by omega, by decide, by decide,
    (re_match_anchored digitPlusFind ("abc 123 def".toList) 4 (by omega)
      (by decide) (by decide)).1⟩

/-- C10.  A negative i32 offset wraps under the `as usize` cast to a value
exceeding any real text's length, so `re_match` takes the soft-fail branch
and the `as i32` cast of the wrapped value reproduces the original
negative offset: the result is `(false, "", pos)` unchanged. -/
theorem re_match_negative_pos (re : RegexFind) (text : List Char) (pos : Int)
    (hlo : -(2 ^ 31) ≤ pos) (hneg : pos < 0)
    (hlen : (text.length : Int) < 2 ^ 63) :
    text.length < toUsize pos ∧ re_match re text pos = (false, [], pos) := by
  have h1 : (toUsize pos : Int) = pos + 2 ^ 64 :=
    toUsize_of_neg pos (by omega) hneg
  have h2 : text.length < toUsize pos := by omega
  have h3 : toI32ofNat (toUsize pos) = pos := by
    rw [show toUsize pos = (pos + 2 ^ 64).toNat by omega]
    exact toI32ofNat_roundtrip pos hlo hneg
  exact ⟨h2, by simp only [re_match, if_pos h2, h3]⟩

/-- Witness for C10 at a concrete input. -/
theorem re_match_negative_pos_witness :
    -(2 ^ 31) ≤ (-7 : Int) ∧ (-7 : Int) < 0
    ∧ ((("abc".toList : List Char).length : Int) < 2 ^ 63)
    ∧ ("abc".toList : List Char).length < toUsize (-7)
    ∧ re_match digitPlusFind ("abc".toList) (-7) = (false, [], -7) :=
  ⟨by omega, by omega, by decide,
    (re_match_negative_pos digitPlusFind ("abc".toList) (-7) (by omega)
      (by omega) (by decide)).1,
    (re_match_negative_pos digitPlusFind ("abc".toList) (-7) (by omega)
      (by omega) (by decide)).2⟩

/-- C6.  `get_or_compile` is cache-transparent: on any well-formed cache —
every stored entry is the deterministic compilation of its own key, and no
key occurs twice — the returned compiled pattern is exactly `compile p`,
independent of the cache contents and call history, and both invariants
are preserved.  Consequently the results of the matching operations depend
only on their pattern and text arguments. -/
theorem get_or_compile_transparent {R : Type} (compile : String → R)
    (cache : List (String × R)) (p : String)
    (hwf : ∀ kv ∈ cache, kv.2 = compile kv.1)
    (hnd : (cache.map Prod.fst).Nodup) :
    (get_or_compile compile cache p).1 = compile p
    ∧ (∀ kv ∈ (get_or_compile compile cache p).2, kv.2 = compile kv.1)
    ∧ ((get_or_compile compile cache p).2.map Prod.fst).Nodup := by
  cases hf : cache.find? (fun kv => kv.1 == p) with
  | some kv =>
      have hmem : kv ∈ cache := List.mem_of_find?_eq_some hf
      have hkey : kv.1 = p := by
        have := List.find?_some hf
        simpa using this
      have hres : get_or_compile compile cache p = (kv.2, cache) := by
        unfold get_or_compile
        rw [hf]
      rw [hres]
      exact ⟨by rw [hwf kv hmem, hkey], hwf, hnd⟩
  | none =>
      have habs : ∀ kv ∈ cache, kv.1 ≠ p := by
        intro kv hkv
        have := List.find?_eq_none.mp hf kv hkv
        simpa using this
      have hres : get_or_compile compile cache p =
          (compile p, cache ++ [(p, compile p)]) := by
        unfold get_or_compile
        rw [hf]
      rw [hres]
      refine ⟨rfl, ?_, ?_⟩
      · intro kv hkv
        rcases List.mem_append.mp hkv with h | h
        · exact hwf kv h
        · simp only [List.mem_singleton] at h
          rw [h]
      · rw [List.map_append, List.nodup_append]
        refine ⟨hnd, by simp, ?_⟩
        intro x hx hx2
        simp only [List.map_cons, List.map_nil, List.mem_singleton] at hx2
        rcases List.mem_map.mp hx with ⟨kv, hkv, hfst⟩
        exact habs kv hkv (hfst.trans hx2)

/-- Witness for C6 at a concrete input. -/
theorem get_or_compile_transparent_witness :
    (∀ kv ∈ ([("a", 1)] : List (String × Nat)), kv.2 = kv.1.length)
    ∧ (([("a", 1)] : List (String × Nat)).map Prod.fst).Nodup
    ∧ (get_or_compile (fun s => s.length) ([("a", 1)] : List (String × Nat))
        "bc").1 = ("bc" : String).length :=
  ⟨by decide, by simp,
    (get_or_compile_transparent (fun s => s.length) [("a", 1)] "bc"
      (by decide) (by simp)).1⟩

/-- The lexicographic order is irreflexive. -/
theorem lexLt_irrefl (s : List Char) : lexLt s s = false := by
  induction s with
  | nil => rfl
  | cons a t ih => simp [lexLt, lt_irrefl, ih]

/-- The lexicographic order is asymmetric. -/
theorem lexLt_asymm : ∀ s t : List Char, lexLt s t = true → lexLt t s = false := by
  intro s
  induction s with
  | nil =>
      intro t h
      cases t with
      | nil => simp [lexLt] at h
      | cons b t2 => rfl
  | cons a s ih =>
      intro t h
      cases t with
      | nil => simp [lexLt] at h
      | cons b t2 =>
          simp only [lexLt] at h ⊢
          rcases lt_trichotomy a b with hab | hab | hab
          · rw [if_neg (lt_asymm hab), if_pos hab]
          · subst hab
            rw [if_neg (lt_irrefl a), if_neg (lt_irrefl a)] at h ⊢
            exact ih t2 h
          · rw [if_neg (lt_asymm hab), if_pos hab] at h
            exact absurd h (by simp)

/-- The lexicographic order is transitive. -/
theorem lexLt_trans : ∀ s t u : List Char,
    lexLt s t = true → lexLt t u = true → lexLt s u = true := by
  intro s
  induction s with
  | nil =>
      intro t u h1 h2
      cases u with
      | nil =>
          cases t with
          | nil => exact absurd h1 (by simp [lexLt])
          | cons b t2 => exact absurd h2 (by simp [lexLt])
      | cons c u2 => rfl
  | cons a s ih =>
      intro t u h1 h2
      cases t with
      | nil => exact absurd h1 (by simp [lexLt])
      | cons b t2 =>
          cases u with
          | nil => exact absurd h2 (by simp [lexLt])
          | cons c u2 =>
              simp only [lexLt] at h1 h2 ⊢
              rcases lt_trichotomy a b with hab | hab | hab
              · rcases lt_trichotomy b c with hbc | hbc | hbc
                · rw [if_pos (lt_trans hab hbc)]
                · subst hbc
                  rw [if_pos hab]
                · rw [if_neg (lt_asymm hbc), if_pos hbc] at h2
                  exact absurd h2 (by simp)
              · subst hab
                rcases lt_trichotomy a c with hac | hac | hac
                · rw [if_pos hac]
                · subst hac
                  rw [if_neg (lt_irrefl a), if_neg (lt_irrefl a)] at h1 h2 ⊢
                  exact ih t2 u2 h1 h2
                · rw [if_neg (lt_asymm hac), if_pos hac] at h2
                  exact absurd h2 (by simp)
              · rw [if_neg (lt_asymm hab), if_pos hab] at h1
                exact absurd h1 (by simp)

/-- Two strings neither of which precedes the other are equal. -/
theorem lexLt_connex : ∀ s t : List Char,
    lexLt s t = false → lexLt t s = false → s = t := by
  intro s
  induction s with
  | nil =>
      intro t h1 h2
      cases t with
      | nil => rfl
      | cons b t2 => exact absurd h1 (by simp [lexLt])
  | cons a s ih =>
      intro t h1 h2
      cases t with
      | nil => exact absurd h2 (by simp [lexLt])
      | cons b t2 =>
          simp only [lexLt] at h1 h2
          rcases lt_trichotomy a b with hab | hab | hab
          · rw [if_pos hab] at h1
            exact absurd h1 (by simp)
          · subst hab
            rw [if_neg (lt_irrefl a), if_neg (lt_irrefl a)] at h1 h2
            rw [ih t2 h1 h2]
          · rw [if_pos hab] at h2
            exact absurd h2 (by simp)

/-- Pop precedence is reflexive. -/
theorem popLeB_refl (x : HeapEntry) : popLeB x x = true := by
  simp [popLeB, lt_irrefl, lexLt_irrefl]

/-- An entry that pops no later than another has priority at most the
other's. -/
theorem popLeB_fst_le (x y : HeapEntry) (h : popLeB x y = true) :
    x.1 ≤ y.1 := by
  unfold popLeB at h
  split_ifs at h with h1 h2 h3
  all_goals omega

/-- Pop precedence is total. -/
theorem popLeB_total (x y : HeapEntry) (h : popLeB x y = false) :
    popLeB y x = true := by
  unfold popLeB at h ⊢
  by_cases h1 : x.1 < y.1
  · rw [if_pos h1] at h
    exact absurd h (by simp)
  · rw [if_neg h1] at h
    by_cases h2 : y.1 < x.1
    · rw [if_pos h2]
    · rw [if_neg h2] at h
      rw [if_neg h2, if_neg h1]
      by_cases h3 : lexLt y.2 x.2 = true
      · rw [if_pos h3] at h
        exact absurd h (by simp)
      · rw [if_neg h3] at h
        have hne : ¬ x.2 = y.2 := by simpa using h
        have h3f : lexLt y.2 x.2 = false := by simpa using h3
        by_cases h4 : lexLt x.2 y.2 = true
        · rw [if_pos h4]
        · have h4f : lexLt x.2 y.2 = false := by simpa using h4
          exact absurd (lexLt_connex _ _ h4f h3f) hne

/-- Pop precedence is antisymmetric: mutually preceding entries coincide. -/
theorem popLeB_antisymm (x y : HeapEntry) (hxy : popLeB x y = true)
    (hyx : popLeB y x = true) : x = y := by
  have hx1 := popLeB_fst_le x y hxy
  have hy1 := popLeB_fst_le y x hyx
  have hp : x.1 = y.1 := le_antisymm hx1 hy1
  unfold popLeB at hxy hyx
  rw [if_neg (show ¬ x.1 < y.1 by omega),
    if_neg (show ¬ y.1 < x.1 by omega)] at hxy
  rw [if_neg (show ¬ y.1 < x.1 by omega),
    if_neg (show ¬ x.1 < y.1 by omega)] at hyx
  by_cases h3 : lexLt y.2 x.2 = true
  · by_cases h4 : lexLt x.2 y.2 = true
    · have hfalse := lexLt_asymm _ _ h3
      rw [h4] at hfalse
      exact absurd hfalse (by simp)
    · rw [if_neg h4] at hyx
      have hs : y.2 = x.2 := by simpa using hyx
      exact Prod.ext hp hs.symm
  · rw [if_neg h3] at hxy
    have hs : x.2 = y.2 := by simpa using hxy
    exact Prod.ext hp hs

/-- Pop precedence is transitive. -/
theorem popLeB_trans (x y z : HeapEntry) (hxy : popLeB x y = true)
    (hyz : popLeB y z = true) : popLeB x z = true := by
  have hx1 := popLeB_fst_le x y hxy
  have hy1 := popLeB_fst_le y z hyz
  unfold popLeB at hxy hyz ⊢
  by_cases h1 : x.1 < z.1
  · rw [if_pos h1]
  · have hxz : x.1 = z.1 := by omega
    have hxy1 : x.1 = y.1 := by omega
    rw [if_neg h1, if_neg (show ¬ z.1 < x.1 by omega)]
    rw [if_neg (show ¬ x.1 < y.1 by omega),
      if_neg (show ¬ y.1 < x.1 by omega)] at hxy
    rw [if_neg (show ¬ y.1 < z.1 by omega),
      if_neg (show ¬ z.1 < y.1 by omega)] at hyz
    by_cases ha : lexLt y.2 x.2 = true
    · by_cases hb : lexLt z.2 y.2 = true
      · rw [if_pos (lexLt_trans _ _ _ hb ha)]
      · rw [if_neg hb] at hyz
        have hs : y.2 = z.2 := by simpa using hyz
        rw [if_pos (show lexLt z.2 x.2 = true by rw [← hs]; exact ha)]
    · rw [if_neg ha] at hxy
      have hxy2 : x.2 = y.2 := by simpa using hxy
      by_cases hb : lexLt z.2 y.2 = true
      · rw [if_pos (show lexLt z.2 x.2 = true by rw [hxy2]; exact hb)]
      · rw [if_neg hb] at hyz
        have hyz2 : y.2 = z.2 := by simpa using hyz
        have hs : x.2 = z.2 := hxy2.trans hyz2
        have hlf : lexLt z.2 x.2 = false := by
          rw [hs]
          exact lexLt_irrefl z.2
        rw [if_neg (by simp [hlf])]
        simp [hs]

/-- A list is a permutation of any member consed onto the list with that
member erased. -/
theorem perm_cons_erase_entry (a : HeapEntry) (l : List HeapEntry)
    (h : a ∈ l) : l.Perm (a :: l.erase a) := by
  induction l with
  | nil => cases h
  | cons x t ih =>
      by_cases hxa : x = a
      · subst hxa
        rw [List.erase_cons_head]
      · rw [List.erase_cons_tail (by simpa using hxa)]
        have hat : a ∈ t := by
          rcases List.mem_cons.mp h with h2 | h2
          · exact absurd h2.symm hxa
          · exact h2
        exact ((ih hat).cons x).trans (List.Perm.swap a x _)

/-- The fold of `binHeapPick` returns either its accumulator or a list
element, and the result precedes the accumulator and every element. -/
theorem binHeapPick_spec (l : List HeapEntry) :
    ∀ a : HeapEntry,
      (binHeapPick a l = a ∨ binHeapPick a l ∈ l)
      ∧ popLeB (binHeapPick a l) a = true
      ∧ ∀ y ∈ l, popLeB (binHeapPick a l) y = true := by
  induction l with
  | nil => intro a; exact ⟨Or.inl rfl, popLeB_refl a, by simp⟩
  | cons y l ih =>
      intro a
      by_cases hay : popLeB a y = true
      · have hstep : binHeapPick a (y :: l) = binHeapPick a l := by
          show binHeapPick (if popLeB a y = true then a else y) l =
            binHeapPick a l
          rw [if_pos hay]
        obtain ⟨hmem, hacc, hall⟩ := ih a
        rw [hstep]
        refine ⟨?_, hacc, ?_⟩
        · rcases hmem with h | h
          · exact Or.inl h
          · exact Or.inr (List.mem_cons_of_mem y h)
        · intro z hz
          rcases List.mem_cons.mp hz with h | h
          · rw [h]
            exact popLeB_trans _ _ _ hacc hay
          · exact hall z h
      · have hstep : binHeapPick a (y :: l) = binHeapPick y l := by
          show binHeapPick (if popLeB a y = true then a else y) l =
            binHeapPick y l
          rw [if_neg hay]
        obtain ⟨hmem, hacc, hall⟩ := ih y
        have hya : popLeB y a = true := popLeB_total a y (by simpa using hay)
        rw [hstep]
        refine ⟨?_, popLeB_trans _ _ _ hacc hya, ?_⟩
        · rcases hmem with h | h
          · exact Or.inr (by rw [h]; exact List.mem_cons_self y l)
          · exact Or.inr (List.mem_cons_of_mem y h)
        · intro z hz
          rcases List.mem_cons.mp hz with h | h
          · rw [h]
            exact hacc
          · exact hall z h

/-- A successful `binHeapPop` returns a member that precedes every entry,
and the remainder is the heap with one occurrence of it removed. -/
theorem binHeapPop_some (h : List HeapEntry) (m : HeapEntry)
    (r : List HeapEntry) (hp : binHeapPop h = some (m, r)) :
    m ∈ h ∧ r = h.erase m ∧ ∀ y ∈ h, popLeB m y = true := by
  cases h with
  | nil => simp [binHeapPop] at hp
  | cons a t =>
      have hh : binHeapPop (a :: t) =
          some (binHeapPick a t, (a :: t).erase (binHeapPick a t)) := rfl
      rw [hh] at hp
      injection hp with hp1
      have hm : binHeapPick a t = m := congrArg Prod.fst hp1
      have hr : (a :: t).erase (binHeapPick a t) = r := congrArg Prod.snd hp1
      obtain ⟨hmem, hacc, hall⟩ := binHeapPick_spec t a
      subst hm
      refine ⟨?_, ?_, ?_⟩
      · rcases hmem with h | h
        · rw [h]
          exact List.mem_cons_self a t
        · exact List.mem_cons_of_mem a h
      · exact hr.symm
      · intro y hy
        rcases List.mem_cons.mp hy with h | h
        · rw [h]
          exact hacc
        · exact hall y h

/-- `binHeapPop` yields `none` only on the empty heap. -/
theorem binHeapPop_none (h : List HeapEntry) (hp : binHeapPop h = none) :
    h = [] := by
  cases h with
  | nil => rfl
  | cons a t => simp [binHeapPop] at hp

/-- Popping permutation-equal heaps yields the same entry and
permutation-equal remainders: the popped value is a function of the
multiset of entries. -/
theorem binHeapPop_perm (h1 h2 : List HeapEntry) (hperm : h1.Perm h2)
    (m1 : HeapEntry) (r1 : List HeapEntry) (m2 : HeapEntry)
    (r2 : List HeapEntry) (hp1 : binHeapPop h1 = some (m1, r1))
    (hp2 : binHeapPop h2 = some (m2, r2)) : m1 = m2 ∧ r1.Perm r2 := by
  obtain ⟨hm1, hr1, hmin1⟩ := binHeapPop_some h1 m1 r1 hp1
  obtain ⟨hm2, hr2, hmin2⟩ := binHeapPop_some h2 m2 r2 hp2
  have hmm : m1 = m2 :=
    popLeB_antisymm m1 m2 (hmin1 m2 (hperm.mem_iff.mpr hm2))
      (hmin2 m1 (hperm.mem_iff.mp hm1))
  refine ⟨hmm, ?_⟩
  have hc1 : h1.Perm (m1 :: r1) := by
    rw [hr1]
    exact perm_cons_erase_entry m1 h1 hm1
  have hc2 : h2.Perm (m2 :: r2) := by
    rw [hr2]
    exact perm_cons_erase_entry m2 h2 hm2
  have hcc : (m1 :: r1).Perm (m2 :: r2) := hc1.symm.trans (hperm.trans hc2)
  exact (hmm ▸ hcc).cons_inv

/-- The pop sequence is a permutation of the heap contents. -/
theorem popAllAux_perm : ∀ (fuel : Nat) (h : List HeapEntry),
    h.length ≤ fuel → (popAllAux fuel h).Perm h := by
  intro fuel
  induction fuel with
  | zero =>
      intro h hl
      have hnil : h = [] := List.length_eq_zero.mp (Nat.le_zero.mp hl)
      subst hnil
      exact List.Perm.refl _
  | succ fuel ih =>
      intro h hl
      cases hp : binHeapPop h with
      | none =>
          have hnil := binHeapPop_none h hp
          subst hnil
          simp [popAllAux, binHeapPop]
      | some mr =>
          obtain ⟨m, r⟩ := mr
          obtain ⟨hm, hr, _⟩ := binHeapPop_some h m r hp
          have hlr : r.length ≤ fuel := by
            rw [hr]
            have := List.length_erase_of_mem hm
            omega
          have hstep : popAllAux (fuel + 1) h = m :: popAllAux fuel r := by
            simp [popAllAux, hp]
          rw [hstep]
          refine ((ih r hlr).cons m).trans ?_
          rw [hr]
          exact (perm_cons_erase_entry m h hm).symm

/-- Permutation-equal heaps produce identical pop sequences. -/
theorem popAllAux_eq_of_perm : ∀ (fuel : Nat) (h1 h2 : List HeapEntry),
    h1.length ≤ fuel → h1.Perm h2 →
    popAllAux fuel h1 = popAllAux fuel h2 := by
  intro fuel
  induction fuel with
  | zero => intro h1 h2 hl hperm; rfl
  | succ fuel ih =>
      intro h1 h2 hl hperm
      cases hp1 : binHeapPop h1 with
      | none =>
          have he1 := binHeapPop_none h1 hp1
          subst he1
          have he2 := hperm.symm.eq_nil
          subst he2
          rfl
      | some mr1 =>
          obtain ⟨m1, r1⟩ := mr1
          cases hp2 : binHeapPop h2 with
          | none =>
              have he2 := binHeapPop_none h2 hp2
              subst he2
              have he1 := hperm.eq_nil
              rw [he1] at hp1
              simp [binHeapPop] at hp1
          | some mr2 =>
              obtain ⟨m2, r2⟩ := mr2
              obtain ⟨hmm, hrr⟩ :=
                binHeapPop_perm h1 h2 hperm m1 r1 m2 r2 hp1 hp2
              obtain ⟨hm1, hr1, _⟩ := binHeapPop_some h1 m1 r1 hp1
              have hlr : r1.length ≤ fuel := by
                rw [hr1]
                have := List.length_erase_of_mem hm1
                omega
              have hs1 : popAllAux (fuel + 1) h1 = m1 :: popAllAux fuel r1 := by
                simp [popAllAux, hp1]
              have hs2 : popAllAux (fuel + 1) h2 = m2 :: popAllAux fuel r2 := by
                simp [popAllAux, hp2]
              rw [hs1, hs2, hmm, ih r1 r2 hlr hrr]

/-- The pop sequence is sorted by pop precedence: ascending priorities,
and on equal priorities descending lexicographic item order. -/
theorem popAllAux_pairwise : ∀ (fuel : Nat) (h : List HeapEntry),
    h.length ≤ fuel →
    (popAllAux fuel h).Pairwise (fun a b => popLeB a b = true) := by
  intro fuel
  induction fuel with
  | zero => intro h hl; exact List.Pairwise.nil
  | succ fuel ih =>
      intro h hl
      cases hp : binHeapPop h with
      | none =>
          have hnil := binHeapPop_none h hp
          subst hnil
          simp [popAllAux, binHeapPop]
      | some mr =>
          obtain ⟨m, r⟩ := mr
          obtain ⟨hm, hr, hmin⟩ := binHeapPop_some h m r hp
          have hlr : r.length ≤ fuel := by
            rw [hr]
            have := List.length_erase_of_mem hm
            omega
          have hstep : popAllAux (fuel + 1) h = m :: popAllAux fuel r := by
            simp [popAllAux, hp]
          rw [hstep, List.pairwise_cons]
          refine ⟨?_, ih r hlr⟩
          intro b hb
          have hbr : b ∈ r := (popAllAux_perm fuel r hlr).mem_iff.mp hb
          have hbh : b ∈ h := by
            rw [hr] at hbr
            exact List.mem_of_mem_erase hbr
          exact hmin b hbh

/-- Appending a singleton and reading at the old length returns the new
element. -/
theorem getD_concat_length (l : List β) (a d : β) :
    (l ++ [a]).getD l.length d = a := by
  simp [List.getD, List.getElem?_concat_length]

/-- Appending a singleton and writing at the old length replaces the new
element. -/
theorem set_concat_length (l : List β) (a b : β) :
    (l ++ [a]).set l.length b = l ++ [b] := by
  induction l with
  | nil => rfl
  | cons x t ih => simp [List.set, ih]

/-- C7.  `heap_pop` removes and returns an entry of minimal priority among
all entries currently in the aliased queue instance, returns the absent
result on an empty instance, and popping the five-entry example of the
claim repeatedly yields the priorities 1, 2, 3, 4, 5 in order. -/
theorem heap_pop_minimum :
    (∀ (st : HeapStore) (q : Nat) (m : HeapEntry) (st2 : HeapStore),
        heap_pop st q = (some m, st2) → ∀ y ∈ st.getD q [], m.1 ≤ y.1)
    ∧ (∀ (st : HeapStore) (q : Nat), st.getD q [] = [] →
        heap_pop st q = (none, st))
    ∧ (popAll ((heap_push (heap_push (heap_push (heap_push (heap_push
          (heap_new []).1 (heap_new []).2 5 "five".toList)
          (heap_new []).2 1 "one".toList)
          (heap_new []).2 3 "three".toList)
          (heap_new []).2 2 "two".toList)
          (heap_new []).2 4 "four".toList).getD (heap_new []).2 [])).map
        Prod.fst = [1, 2, 3, 4, 5] := by
  refine ⟨?_, ?_, by decide⟩
  · intro st q m st2 hpop y hy
    cases hp : binHeapPop (st.getD q []) with
    | none =>
        have hred : heap_pop st q = (none, st) := by
          unfold heap_pop
          rw [hp]
        rw [hred] at hpop
        simp at hpop
    | some mr =>
        obtain ⟨m0, r0⟩ := mr
        have hred : heap_pop st q = (some m0, st.set q r0) := by
          unfold heap_pop
          rw [hp]
        rw [hred] at hpop
        have hm : m0 = m := by
          have := congrArg Prod.fst hpop
          simpa using this
        obtain ⟨_, _, hmin⟩ := binHeapPop_some _ m0 r0 hp
        exact popLeB_fst_le m y (hm ▸ hmin y hy)
  · intro st q hempty
    unfold heap_pop
    rw [hempty]
    rfl

/-- Witness for C7 at a concrete input. -/
theorem heap_pop_minimum_witness :
    ((1 : Int), "a".toList).1 ≤ ((2 : Int), "b".toList).1 :=
  heap_pop_minimum.1 [[(2, "b".toList), (1, "a".toList)]] 0 (1, "a".toList)
    [[(2, "b".toList)]] (by decide) (2, "b".toList) (by decide)

/-- C8.  Aliasing: any second handle equal to the one returned by
`heap_new` observes the push made through the first handle (`heap_len`
becomes 1 and `heap_pop` returns the pushed entry), after which the first
handle observes the emptiness caused by the pop through the second. -/
theorem heap_alias_visibility (st0 : HeapStore) (h1 h2 : Nat)
    (e1 : h1 = (heap_new st0).2) (e2 : h2 = h1) :
    heap_len (heap_push (heap_new st0).1 h1 7 "x".toList) h2 = 1
    ∧ (heap_pop (heap_push (heap_new st0).1 h1 7 "x".toList) h2).1 =
        some (7, "x".toList)
    ∧ heap_is_empty
        ((heap_pop (heap_push (heap_new st0).1 h1 7 "x".toList) h2).2)
        h1 = true := by
  subst e2
  subst e1
  simp only [heap_new]
  have hpush : heap_push (st0 ++ [[]]) st0.length 7 "x".toList =
      st0 ++ [[(7, "x".toList)]] := by
    unfold heap_push
    rw [getD_concat_length, set_concat_length]
    simp
  have hpop1 : binHeapPop [(7, "x".toList)] = some ((7, "x".toList), []) := by
    decide
  have hpopeq : heap_pop (st0 ++ [[(7, "x".toList)]]) st0.length =
      (some (7, "x".toList),
        (st0 ++ [[(7, "x".toList)]]).set st0.length []) := by
    unfold heap_pop
    rw [getD_concat_length, hpop1]
  refine ⟨?_, ?_, ?_⟩
  · rw [hpush]
    unfold heap_len
    rw [getD_concat_length]
    rfl
  · rw [hpush, hpopeq]
  · rw [hpush, hpopeq]
    unfold heap_is_empty
    rw [set_concat_length, getD_concat_length]
    rfl

/-- Witness for C8 at a concrete input. -/
theorem heap_alias_visibility_witness :
    heap_len (heap_push (heap_new []).1 0 7 "x".toList) 0 = 1
    ∧ (heap_pop (heap_push (heap_new []).1 0 7 "x".toList) 0).1 =
        some (7, "x".toList)
    ∧ heap_is_empty
        ((heap_pop (heap_push (heap_new []).1 0 7 "x".toList) 0).2) 0 =
        true :=
  heap_alias_visibility [] 0 0 rfl rfl

/-- C9.  The full pop sequence of a queue is a function of the multiset of
its entries alone (push order is unobservable), the sequence is sorted by
pop precedence — ascending priority, and within one priority descending
byte-wise lexicographic item order — and the three equal-priority entries
of the example pop as gamma, beta, alpha. -/
theorem pop_order_deterministic :
    (∀ g1 g2 : List HeapEntry, g1.Perm g2 → popAll g1 = popAll g2)
    ∧ (∀ g : List HeapEntry,
        (popAll g).Pairwise (fun a b => popLeB a b = true))
    ∧ (popAll [(1, "alpha".toList), (1, "beta".toList),
        (1, "gamma".toList)]).map Prod.snd =
        ["gamma".toList, "beta".toList, "alpha".toList] := by
  refine ⟨?_, ?_, by decide⟩
  · intro g1 g2 hperm
    unfold popAll
    rw [hperm.length_eq]
    exact popAllAux_eq_of_perm g2.length g1 g2 (by rw [hperm.length_eq]) hperm
  · intro g
    exact popAllAux_pairwise g.length g (le_refl _)

/-- Witness for C9 at a concrete input. -/
theorem pop_order_deterministic_witness :
    popAll [(1, "a".toList), (2, "b".toList)] =
      popAll [(2, "b".toList), (1, "a".toList)] :=
  pop_order_deterministic.1 [(1, "a".toList), (2, "b".toList)]
    [(2, "b".toList), (1, "a".toList)]
    (List.Perm.swap (2, "b".toList) (1, "a".toList) [])

end HomunStd
